import Mathlib

/-!
Verification development for the `oisoik` raster image editor
(`src/app/history_manager.py`, `src/app/layer_manager.py`,
`src/app/drawing_canvas.py`).

The Python code is shallowly embedded: each class becomes a structure,
each method a pure function threading the state explicitly.  Python
`None`-able values become `Option`, Python dicts become association
lists preserving insertion order (matching `dict`/`defaultdict`
semantics), and PIL images become `Image` records with exact rational
pixel arithmetic in the straight-alpha representation PIL uses.
-/

set_option autoImplicit false

namespace Oisoik

/-! ## HistoryManager (`src/app/history_manager.py`)

The image snapshots stored in the history are opaque to the manager
(`.copy()` on a PIL image yields an equal deep clone, so `copy` is the
identity on values); the manager is parametrised over the snapshot type
`α`.  Layer ids are `uuid.uuid4()` values, modelled as `ℕ`; a Python
`None` layer id (the only falsy value callers can pass, UUID objects
being always truthy) is modelled as `Option.none`. -/

/-- One entry of `HistoryManager.history_stacks`: the dict
`{'undo': [...], 'redo': [...]}`. -/
structure LayerHistory (α : Type) where
  undo : List α
  redo : List α
  deriving Repr, DecidableEq

/-- The default entry a `defaultdict(lambda: {'undo': [], 'redo': []})`
creates on first access. -/
def LayerHistory.empty {α : Type} : LayerHistory α := ⟨[], []⟩

/-- `HistoryManager.__init__` state: `max_depth` and the per-layer-id
`defaultdict` of undo/redo stacks, modelled as an insertion-ordered
association list (Python dicts preserve insertion order). -/
structure HistoryManager (α : Type) where
  maxDepth : ℕ
  historyStacks : List (ℕ × LayerHistory α)
  deriving Repr, DecidableEq

/-- `HistoryManager(max_history_depth=20)`. -/
def HistoryManager.init (α : Type) (maxHistoryDepth : ℕ) : HistoryManager α :=
  ⟨maxHistoryDepth, []⟩

/-- Plain dict lookup (used by `layer_id in self.history_stacks`, which
never inserts). -/
def hmLookup {α : Type} (lid : ℕ) : List (ℕ × LayerHistory α) → Option (LayerHistory α)
  | [] => none
  | (k, v) :: rest => if k = lid then some v else hmLookup lid rest

/-- Dict write-back: update the entry for `lid` in place, or append a
new entry at the end (Python dicts append new keys at the end). -/
def hmSet {α : Type} (lid : ℕ) (v : LayerHistory α) :
    List (ℕ × LayerHistory α) → List (ℕ × LayerHistory α)
  | [] => [(lid, v)]
  | (k, w) :: rest => if k = lid then (k, v) :: rest else (k, w) :: hmSet lid v rest

/-- `defaultdict.__getitem__`: returns the stored entry, inserting (and
returning) the default entry when the key is missing. -/
def ddGetItem {α : Type} (m : HistoryManager α) (lid : ℕ) :
    LayerHistory α × HistoryManager α :=
  match hmLookup lid m.historyStacks with
  | some h => (h, m)
  | none => (LayerHistory.empty,
      { m with historyStacks := m.historyStacks ++ [(lid, LayerHistory.empty)] })

/-- The eviction loop
`while len(layer_history['undo']) > self.max_depth: layer_history['undo'].pop(0)`. -/
def trimFront {α : Type} (maxDepth : ℕ) (l : List α) : List α :=
  if l.length > maxDepth then trimFront maxDepth l.tail else l
termination_by l.length
decreasing_by
  cases l with
  | nil => simp at *
  | cons a t => simp

/-- `HistoryManager.add_state(layer_id, image_state_pil, is_initial_state=False)`.
The guarded in-Python block comparing duplicate states is `pass` (dead
code) and is omitted; the entry mutations (append to `undo`, the
eviction loop, the conditional `redo.clear()`) all act on the aliased
dict entry, so the final entry is written back once. -/
def addState {α : Type} (m : HistoryManager α) (layerId : Option ℕ) (img : α)
    (isInitialState : Bool) : HistoryManager α :=
  match layerId with
  | none => m
  | some lid =>
    let p := ddGetItem m lid
    let u := trimFront p.2.maxDepth (p.1.undo ++ [img])
    let r := if isInitialState then p.1.redo else []
    { p.2 with historyStacks := hmSet lid ⟨u, r⟩ p.2.historyStacks }

/-- `HistoryManager.can_undo(layer_id)`:
`layer_id in self.history_stacks and len(self.history_stacks[layer_id]['undo']) > 1`.
The second conjunct indexes the `defaultdict`, but only after the
membership test succeeded (short-circuit), so the state is threaded to
make the absence of insertion provable rather than assumed. -/
def canUndo {α : Type} (m : HistoryManager α) (layerId : Option ℕ) :
    Bool × HistoryManager α :=
  match layerId with
  | none => (false, m)
  | some lid =>
    if (hmLookup lid m.historyStacks).isSome then
      let p := ddGetItem m lid
      (decide (p.1.undo.length > 1), p.2)
    else (false, m)

/-- `HistoryManager.can_redo(layer_id)`:
`layer_id in self.history_stacks and bool(self.history_stacks[layer_id]['redo'])`. -/
def canRedo {α : Type} (m : HistoryManager α) (layerId : Option ℕ) :
    Bool × HistoryManager α :=
  match layerId with
  | none => (false, m)
  | some lid =>
    if (hmLookup lid m.historyStacks).isSome then
      let p := ddGetItem m lid
      (!p.1.redo.isEmpty, p.2)
    else (false, m)

/-- `HistoryManager.undo(layer_id)`.  Returns the Python return value
(`None` or a copy of the restored state) together with the updated
manager.  `list.pop()` takes the last element; the defensive branch
(`undo` empty after the pop) re-appends the popped state
(`undo.append(redo.pop())`, and the element just appended to `redo` is
exactly the popped `current_state`). -/
def hmUndo {α : Type} (m : HistoryManager α) (layerId : Option ℕ) :
    Option α × HistoryManager α :=
  match layerId with
  | none => (none, m)
  | some lid =>
    let c := canUndo m (some lid)
    if !c.1 then (none, c.2)
    else
      let p := ddGetItem c.2 lid
      match p.1.undo.getLast? with
      | none => (none, p.2)
      | some currentState =>
        let u := p.1.undo.dropLast
        let r := p.1.redo ++ [currentState]
        match u.getLast? with
        | some prev =>
            (some prev, { p.2 with historyStacks := hmSet lid ⟨u, r⟩ p.2.historyStacks })
        | none =>
            let st := hmSet lid ⟨u ++ [currentState], r.dropLast⟩ p.2.historyStacks
            (none, { p.2 with historyStacks := st })

/-- `HistoryManager.redo(layer_id)`. -/
def hmRedo {α : Type} (m : HistoryManager α) (layerId : Option ℕ) :
    Option α × HistoryManager α :=
  match layerId with
  | none => (none, m)
  | some lid =>
    let c := canRedo m (some lid)
    if !c.1 then (none, c.2)
    else
      let p := ddGetItem c.2 lid
      match p.1.redo.getLast? with
      | none => (none, p.2)
      | some redoneState =>
        let st := hmSet lid ⟨p.1.undo ++ [redoneState], p.1.redo.dropLast⟩ p.2.historyStacks
        (some redoneState, { p.2 with historyStacks := st })

/-- View of the undo/redo stacks of one layer (missing layers read as
the default empty entry, the value any subsequent `defaultdict` access
would create). -/
def entry {α : Type} (m : HistoryManager α) (lid : ℕ) : LayerHistory α :=
  (hmLookup lid m.historyStacks).getD LayerHistory.empty

/-- A sequence of ordinary edits: `add_state(lid, s)` for each `s` in
`xs`, left to right (all with `is_initial_state=False`). -/
def pushSeq {α : Type} (m : HistoryManager α) (lid : ℕ) (xs : List α) : HistoryManager α :=
  xs.foldl (fun acc s => addState acc (some lid) s false) m

/-! ## PIL images (`PIL.Image`, as used by `src/app/layer_manager.py`)

PIL `RGBA` images store straight (non-premultiplied) alpha.  Channels
are modelled as exact rationals (the idealised real-number semantics of
PIL's 8-bit fixed-point operations); an image is a width, a height and
a total pixel function (values outside the bounds are irrelevant to the
code, which only ever reads in-bounds pixels). -/

/-- One straight-alpha RGBA sample. -/
structure Pixel where
  r : ℚ
  g : ℚ
  b : ℚ
  a : ℚ
  deriving Repr, DecidableEq

/-- The fully transparent sample `(0, 0, 0, 0)`. -/
def Pixel.transparent : Pixel := ⟨0, 0, 0, 0⟩

/-- A PIL `RGBA` image. -/
structure Image where
  width : ℕ
  height : ℕ
  pix : ℕ → ℕ → Pixel

/-- `Image.new("RGBA", (w, h), c)`. -/
def Image.new (w h : ℕ) (c : Pixel) : Image := ⟨w, h, fun _ _ => c⟩

/-- Porter–Duff source-over on straight alpha, exactly as PIL's
`alpha_composite` computes it: `outA = srcA + dstA*(1-srcA)`, colour
channels averaged with weights `srcA` and `dstA*(1-srcA)` and divided
by `outA` (0 when `outA = 0`, matching both PIL and `ℚ` division). -/
def Pixel.overStraight (src dst : Pixel) : Pixel :=
  let outA := src.a + dst.a * (1 - src.a)
  ⟨(src.r * src.a + dst.r * dst.a * (1 - src.a)) / outA,
   (src.g * src.a + dst.g * dst.a * (1 - src.a)) / outA,
   (src.b * src.a + dst.b * dst.a * (1 - src.a)) / outA,
   outA⟩

/-- `dst.alpha_composite(src)` (PIL composites the argument over the
receiver; both images have the same size wherever the code calls it). -/
def Image.alphaComposite (dst src : Image) : Image :=
  { dst with pix := fun x y => Pixel.overStraight (src.pix x y) (dst.pix x y) }

/-- Mask blending of `Image.paste`: with mask value `m` (the source's
alpha band scaled to `[0,1]`), every band — alpha included — becomes
`dst*(1-m) + src*m` (PIL: "Intermediate values will mix the two images
together, including their alpha channels"). -/
def Pixel.pasteBlend (dst src : Pixel) (m : ℚ) : Pixel :=
  ⟨dst.r * (1 - m) + src.r * m,
   dst.g * (1 - m) + src.g * m,
   dst.b * (1 - m) + src.b * m,
   dst.a * (1 - m) + src.a * m⟩

/-- `canvas.paste(src, (0, 0), src)` for an RGBA `src`: inside the
source's bounds each canvas pixel is mask-blended with the source pixel
using the source's own alpha as the mask; outside, the canvas pixel is
preserved. -/
def Image.pasteSelfMask (canvas src : Image) : Image :=
  { canvas with pix := fun x y =>
      if x < src.width ∧ y < src.height then
        Pixel.pasteBlend (canvas.pix x y) (src.pix x y) (src.pix x y).a
      else canvas.pix x y }

/-! ## LayerManager (`src/app/layer_manager.py`)

Layer ids (`uuid.uuid4()`) are modelled as `ℕ`.  All layer images held
by the application are `RGBA` (`main_window.py` converts every loaded
or created image with `convert("RGBA")` / `Image.new("RGBA", ...)`), so
the `mode == 'RGBA'` tests in `get_composite_image` are fixed to true
in the model. -/

/-- `Layer.__init__`: the stored fields of one layer. -/
structure Layer where
  id : ℕ
  name : String
  image : Option Image
  originalImage : Option Image
  visible : Bool
  opacity : ℚ

/-- The `Layer` constructor body:
`original_image = image.copy() if image and is_original else None`
(`copy` is the identity on values). -/
def Layer.make (id : ℕ) (name : String) (image : Option Image) (visible : Bool)
    (opacity : ℚ) (isOriginal : Bool) : Layer :=
  ⟨id, name, image,
   if image.isSome ∧ isOriginal then image else none,
   visible, opacity⟩

/-- `LayerManager.__init__` state (the Qt signal objects carry no
state). `layers` is bottom-first, index 0 = bottom. -/
structure LayerManager where
  layers : List Layer
  activeLayerId : Option ℕ
  layerNameCounter : ℕ

/-- The first loop of `get_composite_image` (lines 85–89): the size of
the first layer with `layer.image and layer.visible`, scanning
bottom-up. -/
def firstVisibleSize : List Layer → Option (ℕ × ℕ)
  | [] => none
  | l :: rest =>
    match l.image with
    | some img => if l.visible then some (img.width, img.height) else firstVisibleSize rest
    | none => firstVisibleSize rest

/-- The fallback of lines 91–96: when no visible layer with an image
exists, try the first layer's image size regardless of visibility. -/
def compositeBaseSize (layers : List Layer) : Option (ℕ × ℕ) :=
  match firstVisibleSize layers with
  | some wh => some wh
  | none =>
    match layers with
    | [] => none
    | l0 :: _ =>
      match l0.image with
      | some img => some (img.width, img.height)
      | none => none

/-- One iteration of the compositing loop (lines 101–128) for a single
layer: skip if invisible or image-less; if the layer's size differs
from the canvas, paste it (self-masked, at `(0, 0)`) onto a fresh
transparent canvas-sized buffer; then `alpha_composite` the buffer over
the accumulator. -/
def compositeStep (bw bh : ℕ) (comp : Image) (layer : Layer) : Image :=
  match layer.image with
  | none => comp
  | some img =>
    if layer.visible then
      let imageToComposite :=
        if (img.width, img.height) ≠ (bw, bh) then
          Image.pasteSelfMask (Image.new bw bh Pixel.transparent) img
        else img
      Image.alphaComposite comp imageToComposite
    else comp

/-- The compositing loop over the whole (bottom-first) layer list. -/
def compositeFold (bw bh : ℕ) (comp : Image) (layers : List Layer) : Image :=
  layers.foldl (compositeStep bw bh) comp

/-- `LayerManager.get_composite_image` (lines 79–129): `None` when
there are no layers; the minimal `1×1` transparent image when no base
size can be determined; otherwise the fold of all layers over a
transparent canvas of the base size. -/
def getCompositeImage (m : LayerManager) : Option Image :=
  if m.layers.isEmpty then none
  else
    match compositeBaseSize m.layers with
    | none => some (Image.new 1 1 Pixel.transparent)
    | some (bw, bh) =>
      some (compositeFold bw bh (Image.new bw bh Pixel.transparent) m.layers)

/-! ### Spec-side definitions for the composite refinement comparison

These two definitions follow the SPEC's words (not the source) and
exist only to be compared with the source-derived definitions above. -/

/-- Spec's wording for size-mismatch handling: the layer is "placed at
the top-left corner of a transparent canvas-sized buffer (no scaling,
no cropping)" — in-bounds pixels copied verbatim, transparent
elsewhere. -/
def Image.placeTopLeftSpec (bw bh : ℕ) (src : Image) : Image :=
  ⟨bw, bh, fun x y =>
    if x < src.width ∧ y < src.height then src.pix x y else Pixel.transparent⟩

/-- Spec's "over" formula, stated on the premultiplied representation:
`out = src + dst*(1-src.a)` in every channel. -/
def Pixel.overPremulSpec (src dst : Pixel) : Pixel :=
  ⟨src.r + dst.r * (1 - src.a),
   src.g + dst.g * (1 - src.a),
   src.b + dst.b * (1 - src.a),
   src.a + dst.a * (1 - src.a)⟩

/-- Conversion of a straight-alpha sample to its premultiplied
representation (RGB channels scaled by alpha). -/
def Pixel.premul (p : Pixel) : Pixel := ⟨p.r * p.a, p.g * p.a, p.b * p.a, p.a⟩

/-! ## DrawingCanvas (`src/app/drawing_canvas.py`)

The QImage the canvas draws on, and the two `QPainter` rasterisation
routines (round-capped line for brush/eraser, `_draw_shape_on_painter`
for shapes), live in Qt; the canvas is parametrised over the image type
`Img` and the move handler takes the two rasterisers as arguments.
`QColor` values are opaque (modelled as `ℕ`); `QPoint` is `ℤ × ℤ`. -/

abbrev QtPoint := ℤ × ℤ

/-- A dynamically-typed Python argument that is either an `int` or a
value of some other type (for the `isinstance(width, int)` check). -/
inductive PyIntArg where
  | int (n : ℤ)
  | nonint
  deriving Repr, DecidableEq

/-- The state fields of `DrawingCanvas.__init__` that the drawing logic
reads or writes (Qt widget attributes and sizes are display-only). -/
structure CanvasState (Img : Type) where
  image : Option Img
  drawing : Bool
  lastPoint : QtPoint
  penColor : ℕ
  penWidth : ℤ
  mode : String
  startPoint : QtPoint
  tempImage : Option Img
  showBrushCursor : Bool
  currentMousePos : QtPoint
  deriving DecidableEq

/-- `DrawingCanvas.__init__`: fresh transparent image (built by Qt,
passed in as `blank`), not drawing, black pen of width 5, mode
`'brush'`, no temp image, brush cursor hidden. -/
def CanvasState.init {Img : Type} (blank : Img) : CanvasState Img :=
  ⟨some blank, false, (0, 0), 0, 5, "brush", (0, 0), none, false, (0, 0)⟩

/-- `DrawingCanvas.set_pen_width`:
`if isinstance(width, int) and width > 0: self.pen_width = width`
(`self.update()` is a repaint request, no model state). -/
def setPenWidth {Img : Type} (s : CanvasState Img) (width : PyIntArg) : CanvasState Img :=
  match width with
  | .int n => if n > 0 then { s with penWidth := n } else s
  | .nonint => s

/-- The `valid_modes` list of `DrawingCanvas.set_mode`. -/
def validModes : List String := ["brush", "eraser", "rect", "ellipse", "line"]

/-- `DrawingCanvas.set_mode`: accept only members of `valid_modes`,
setting the brush-cursor flag for brush/eraser; otherwise only print a
warning. -/
def setMode {Img : Type} (s : CanvasState Img) (mode : String) : CanvasState Img :=
  if mode ∈ validModes then
    { s with mode := mode, showBrushCursor := mode ∈ ["brush", "eraser"] }
  else s

/-- `DrawingCanvas.mousePressEvent`, left-button branch: start drawing,
record the position as both `last_point` and `start_point`, and in a
shape mode snapshot the current image into `temp_image`
(`self.temp_image = self.image.copy()`; `copy` is the identity on
values). -/
def mousePressEvent {Img : Type} (s : CanvasState Img) (pos : QtPoint) : CanvasState Img :=
  let s1 := { s with drawing := true, lastPoint := pos, startPoint := pos }
  if s1.mode ∈ ["rect", "ellipse", "line"] ∧ s1.image.isSome then
    { s1 with tempImage := s1.image }
  else s1

/-- `DrawingCanvas.mouseMoveEvent`.  `drawBrushLine img mode color
width a b` is the Qt round-capped line stroke (source-over for
`'brush'`, `CompositionMode_Clear` for `'eraser'`); `drawShapeOn img
color width shape a b` is `_draw_shape_on_painter`.  When not drawing,
only the cursor position is updated. -/
def mouseMoveEvent {Img : Type}
    (drawBrushLine : Img → String → ℕ → ℤ → QtPoint → QtPoint → Img)
    (drawShapeOn : Img → ℕ → ℤ → String → QtPoint → QtPoint → Img)
    (s : CanvasState Img) (pos : QtPoint) : CanvasState Img :=
  let s0 := { s with currentMousePos := pos }
  if !s0.drawing then s0
  else
    let currentPoint := pos
    if s0.mode ∈ ["brush", "eraser"] ∧ s0.image.isSome then
      match s0.image with
      | some img =>
        { s0 with
          image := some (drawBrushLine img s0.mode s0.penColor s0.penWidth s0.lastPoint currentPoint),
          lastPoint := currentPoint }
      | none => s0
    else if s0.mode ∈ ["rect", "ellipse", "line"] ∧ s0.tempImage.isSome then
      match s0.tempImage with
      | some t =>
        let s1 := if s0.image.isSome then { s0 with image := some t } else s0
        match s1.image with
        | some img =>
          { s1 with
            image := some (drawShapeOn img s1.penColor s1.penWidth s1.mode s1.startPoint currentPoint) }
        | none => s1
      | none => s0
    else s0

/-- `DrawingCanvas.mouseReleaseEvent`, left-button branch while
drawing: stop drawing and drop the shape snapshot (the final shape was
already rendered by the last move event). -/
def mouseReleaseEvent {Img : Type} (s : CanvasState Img) : CanvasState Img :=
  if s.drawing then { s with drawing := false, tempImage := none } else s

/-! ## Support lemmas: the history store -/

section HistoryLemmas

variable {α : Type}

theorem hmLookup_hmSet_self (lid : ℕ) (v : LayerHistory α)
    (st : List (ℕ × LayerHistory α)) : hmLookup lid (hmSet lid v st) = some v := by
  induction st with
  | nil => simp [hmSet, hmLookup]
  | cons p rest ih =>
    obtain ⟨k, w⟩ := p
    by_cases h : k = lid
    · simp [hmSet, hmLookup, h]
    · simp [hmSet, hmLookup, h, ih]

theorem entry_hmSet (m : HistoryManager α) (lid : ℕ) (v : LayerHistory α) :
    entry { m with historyStacks := hmSet lid v m.historyStacks } lid = v := by
  unfold entry
  rw [hmLookup_hmSet_self]
  rfl

theorem ddGetItem_fst (m : HistoryManager α) (lid : ℕ) :
    (ddGetItem m lid).1 = entry m lid := by
  unfold ddGetItem entry
  cases h : hmLookup lid m.historyStacks <;> simp [LayerHistory.empty]

theorem ddGetItem_snd_of_lookup (m : HistoryManager α) (lid : ℕ) (h : LayerHistory α)
    (hl : hmLookup lid m.historyStacks = some h) : ddGetItem m lid = (h, m) := by
  unfold ddGetItem
  rw [hl]

theorem entry_addState (m : HistoryManager α) (lid : ℕ) (img : α) (b : Bool) :
    entry (addState m (some lid) img b) lid =
      ⟨trimFront m.maxDepth ((entry m lid).undo ++ [img]),
       if b then (entry m lid).redo else []⟩ := by
  unfold addState ddGetItem
  cases h : hmLookup lid m.historyStacks with
  | none =>
    simp only [h]
    unfold entry
    rw [hmLookup_hmSet_self, h]
    rfl
  | some hh =>
    simp only [h]
    unfold entry
    rw [hmLookup_hmSet_self, h]
    rfl

theorem maxDepth_addState (m : HistoryManager α) (lids : Option ℕ) (img : α) (b : Bool) :
    (addState m lids img b).maxDepth = m.maxDepth := by
  cases lids with
  | none => rfl
  | some lid =>
    unfold addState ddGetItem
    cases h : hmLookup lid m.historyStacks <;> simp [h]

theorem canUndo_fst (m : HistoryManager α) (lid : ℕ) :
    (canUndo m (some lid)).1 = decide ((entry m lid).undo.length > 1) := by
  unfold canUndo entry
  cases h : hmLookup lid m.historyStacks with
  | none => simp [h, LayerHistory.empty]
  | some hh => simp [ddGetItem, h]

theorem canUndo_snd (m : HistoryManager α) (lids : Option ℕ) :
    (canUndo m lids).2 = m := by
  cases lids with
  | none => rfl
  | some lid =>
    unfold canUndo
    cases h : hmLookup lid m.historyStacks <;> simp [ddGetItem, h]

theorem canRedo_fst (m : HistoryManager α) (lid : ℕ) :
    (canRedo m (some lid)).1 = !(entry m lid).redo.isEmpty := by
  unfold canRedo entry
  cases h : hmLookup lid m.historyStacks with
  | none => simp [h, LayerHistory.empty]
  | some hh => simp [ddGetItem, h]

theorem canRedo_snd (m : HistoryManager α) (lids : Option ℕ) :
    (canRedo m lids).2 = m := by
  cases lids with
  | none => rfl
  | some lid =>
    unfold canRedo
    cases h : hmLookup lid m.historyStacks <;> simp [ddGetItem, h]

theorem hmUndo_of_cannot (m : HistoryManager α) (lids : Option ℕ)
    (h : (canUndo m lids).1 = false) : hmUndo m lids = (none, m) := by
  cases lids with
  | none => rfl
  | some lid =>
    unfold hmUndo
    have h2 := canUndo_snd m (some lid)
    simp only [h, h2, Bool.not_false, if_pos]

theorem entry_lookup_some (m : HistoryManager α) (lid : ℕ)
    (h : entry m lid ≠ LayerHistory.empty) :
    hmLookup lid m.historyStacks = some (entry m lid) := by
  unfold entry at h ⊢
  cases hh : hmLookup lid m.historyStacks with
  | none => rw [hh] at h; simp at h
  | some v => simp [hh]

theorem hmUndo_spec (m : HistoryManager α) (lid : ℕ) (u : List α) (c : α) (r : List α)
    (he : entry m lid = ⟨u ++ [c], r⟩) (hu : u ≠ []) :
    hmUndo m (some lid) =
      (u.getLast?,
       { m with historyStacks := hmSet lid ⟨u, r ++ [c]⟩ m.historyStacks }) := by
  have hlen : 0 < u.length := List.length_pos.mpr hu
  have hs : hmLookup lid m.historyStacks = some ⟨u ++ [c], r⟩ := by
    rw [← he]
    apply entry_lookup_some
    rw [he]
    intro hcon
    have : u ++ [c] = [] := congrArg LayerHistory.undo hcon
    simp at this
  have hcu : (canUndo m (some lid)).1 = true := by
    rw [canUndo_fst, he]
    simp only [decide_eq_true_eq, List.length_append, List.length_singleton]
    omega
  have hdd : ddGetItem m lid = (⟨u ++ [c], r⟩, m) := ddGetItem_snd_of_lookup m lid _ hs
  simp only [hmUndo, canUndo_snd, hcu, hdd, Bool.not_true, Bool.false_eq_true, if_false,
    List.getLast?_concat, List.dropLast_concat]
  cases hgl : u.getLast? with
  | none =>
    rw [List.getLast?_eq_none_iff] at hgl
    exact absurd hgl hu
  | some prev => rfl

theorem hmRedo_spec (m : HistoryManager α) (lid : ℕ) (u r : List α) (c : α)
    (he : entry m lid = ⟨u, r ++ [c]⟩) :
    hmRedo m (some lid) =
      (some c,
       { m with historyStacks := hmSet lid ⟨u ++ [c], r⟩ m.historyStacks }) := by
  have hs : hmLookup lid m.historyStacks = some ⟨u, r ++ [c]⟩ := by
    rw [← he]
    apply entry_lookup_some
    rw [he]
    intro hcon
    have : r ++ [c] = [] := congrArg LayerHistory.redo hcon
    simp at this
  have hcr : (canRedo m (some lid)).1 = true := by
    rw [canRedo_fst, he]
    simp
  have hdd : ddGetItem m lid = (⟨u, r ++ [c]⟩, m) := ddGetItem_snd_of_lookup m lid _ hs
  simp only [hmRedo, canRedo_snd, hcr, hdd, Bool.not_true, Bool.false_eq_true, if_false,
    List.getLast?_concat, List.dropLast_concat]

theorem trimFront_eq_drop (d : ℕ) (l : List α) :
    trimFront d l = l.drop (l.length - d) := by
  induction l with
  | nil => unfold trimFront; simp
  | cons a t ih =>
    unfold trimFront
    by_cases h : (a :: t).length > d
    · rw [if_pos h]
      simp only [List.tail_cons]
      rw [ih]
      have hd : (a :: t).length - d = (t.length - d) + 1 := by
        simp only [List.length_cons]
        simp only [List.length_cons] at h
        omega
      rw [hd, List.drop_succ_cons]
    · rw [if_neg h]
      have hd : (a :: t).length - d = 0 := by
        simp only [List.length_cons] at h ⊢
        omega
      rw [hd, List.drop_zero]

theorem trimFront_concat (d : ℕ) (hd : 1 ≤ d) (u : List α) (s : α) :
    trimFront d (u ++ [s]) = u.drop (u.length + 1 - d) ++ [s] := by
  rw [trimFront_eq_drop]
  have h1 : (u ++ [s]).length - d = u.length + 1 - d := by simp
  rw [h1, List.drop_append_of_le_length (by omega)]

theorem maxDepth_pushSeq (lid : ℕ) (xs : List α) :
    ∀ m : HistoryManager α, (pushSeq m lid xs).maxDepth = m.maxDepth := by
  induction xs with
  | nil => intro m; rfl
  | cons x t ih =>
    intro m
    show (pushSeq (addState m (some lid) x false) lid t).maxDepth = m.maxDepth
    rw [ih, maxDepth_addState]

theorem pushSeq_entry (d : ℕ) (hd : 1 ≤ d) (lid : ℕ) (xs : List α) :
    entry (pushSeq (HistoryManager.init α d) lid xs) lid =
      ⟨xs.drop (xs.length - d), []⟩ := by
  induction xs using List.reverseRecOn with
  | nil => simp [pushSeq, entry, HistoryManager.init, hmLookup, LayerHistory.empty]
  | append_singleton xs x ih =>
    have hstep : pushSeq (HistoryManager.init α d) lid (xs ++ [x]) =
        addState (pushSeq (HistoryManager.init α d) lid xs) (some lid) x false := by
      unfold pushSeq
      rw [List.foldl_append]
      rfl
    rw [hstep, entry_addState, ih, maxDepth_pushSeq]
    simp only [Bool.false_eq_true, if_false]
    have hmd : (HistoryManager.init α d).maxDepth = d := rfl
    rw [hmd, trimFront_concat d hd]
    have hlen : (xs.drop (xs.length - d)).length = xs.length - (xs.length - d) :=
      List.length_drop _ _
    rw [List.drop_drop]
    have hidx : xs.length - d + ((xs.drop (xs.length - d)).length + 1 - d) =
        xs.length + 1 - d := by rw [hlen]; omega
    rw [hidx]
    have hlen2 : (xs ++ [x]).length - d = xs.length + 1 - d := by simp
    rw [hlen2, List.drop_append_of_le_length (by omega)]

end HistoryLemmas

/-! ## Claim theorems: history -/

/-- C1: after `push(lid, s0); push(lid, s1)`, `undo(lid)` returns a
copy equal to `s0` and moves `s1` to the redo stack; a subsequent
`redo(lid)` returns a copy equal to `s1`; and whenever `can_undo` is
false, `undo` returns `None` and leaves the whole store unchanged.
(Requires `max_depth ≥ 2` — the program default is 20 — otherwise `s0`
itself is evicted by the second push.) -/
theorem history_round_trip {α : Type} (m : HistoryManager α) (lid : ℕ) (s0 s1 : α)
    (hd : 2 ≤ m.maxDepth) :
    ∃ m3 : HistoryManager α,
      hmUndo (addState (addState m (some lid) s0 false) (some lid) s1 false) (some lid)
        = (some s0, m3) ∧
      (entry m3 lid).redo = [s1] ∧
      (hmRedo m3 (some lid)).1 = some s1 ∧
      ∀ (m9 : HistoryManager α) (lid9 : Option ℕ),
        (canUndo m9 lid9).1 = false → hmUndo m9 lid9 = (none, m9) := by
  have hd1 : 1 ≤ m.maxDepth := by omega
  have e1 : entry (addState m (some lid) s0 false) lid =
      ⟨(entry m lid).undo.drop ((entry m lid).undo.length + 1 - m.maxDepth) ++ [s0], []⟩ := by
    rw [entry_addState]
    simp only [Bool.false_eq_true, if_false]
    rw [trimFront_concat m.maxDepth hd1]
  obtain ⟨v1, e1⟩ : ∃ v1 : List α,
      entry (addState m (some lid) s0 false) lid = ⟨v1 ++ [s0], []⟩ := ⟨_, e1⟩
  have e2 : entry (addState (addState m (some lid) s0 false) (some lid) s1 false) lid =
      ⟨(v1.drop (v1.length + 2 - m.maxDepth) ++ [s0]) ++ [s1], []⟩ := by
    rw [entry_addState, e1, maxDepth_addState]
    simp only [Bool.false_eq_true, if_false]
    rw [trimFront_concat m.maxDepth hd1]
    have hidx : (v1 ++ [s0]).length + 1 - m.maxDepth = v1.length + 2 - m.maxDepth := by simp
    rw [hidx, List.drop_append_of_le_length (by omega)]
  obtain ⟨w, e2⟩ : ∃ w : List α,
      entry (addState (addState m (some lid) s0 false) (some lid) s1 false) lid =
        ⟨(w ++ [s0]) ++ [s1], []⟩ := ⟨_, e2⟩
  have hun := hmUndo_spec _ lid (w ++ [s0]) s1 [] e2 (by simp)
  rw [List.getLast?_concat] at hun
  refine ⟨_, hun, ?_, ?_, fun m9 lid9 h => hmUndo_of_cannot m9 lid9 h⟩
  · rw [entry_hmSet]
    rfl
  · rw [hmRedo_spec _ lid (w ++ [s0]) [] s1 (entry_hmSet _ lid _)]

/-- Witness for C1 at a concrete manager, layer id and states. -/
theorem history_round_trip_witness :
    2 ≤ (HistoryManager.init ℕ 20).maxDepth ∧
    (∃ m3 : HistoryManager ℕ,
      hmUndo (addState (addState (HistoryManager.init ℕ 20) (some 1) 10 false)
          (some 1) 11 false) (some 1) = (some 10, m3) ∧
      (entry m3 1).redo = [11] ∧
      (hmRedo m3 (some 1)).1 = some 11 ∧
      ∀ (m9 : HistoryManager ℕ) (lid9 : Option ℕ),
        (canUndo m9 lid9).1 = false → hmUndo m9 lid9 = (none, m9)) :=
  ⟨by decide, history_round_trip (HistoryManager.init ℕ 20) 1 10 11 (by decide)⟩

/-- C2: a push never leaves the undo stack longer than `max_depth`
(from any state); pushing a sequence `xs` into a fresh manager of depth
`d ≥ 1` leaves exactly the most recent `min |xs| d` states in order
(the oldest evicted first); in particular `d + 5` pushes leave exactly
`d` entries, the last `d` states in order. -/
theorem undo_depth_bound {α : Type} :
    (∀ (m : HistoryManager α) (lid : ℕ) (img : α) (b : Bool),
      (entry (addState m (some lid) img b) lid).undo.length ≤ m.maxDepth) ∧
    (∀ (d : ℕ), 1 ≤ d → ∀ (lid : ℕ) (xs : List α),
      (entry (pushSeq (HistoryManager.init α d) lid xs) lid).undo =
        xs.drop (xs.length - d)) ∧
    (∀ (d : ℕ), 1 ≤ d → ∀ (lid : ℕ) (xs : List α), xs.length = d + 5 →
      (entry (pushSeq (HistoryManager.init α d) lid xs) lid).undo = xs.drop 5 ∧
      (entry (pushSeq (HistoryManager.init α d) lid xs) lid).undo.length = d) := by
  refine ⟨?_, ?_, ?_⟩
  · intro m lid img b
    rw [entry_addState]
    show (trimFront m.maxDepth _).length ≤ m.maxDepth
    rw [trimFront_eq_drop]
    simp only [List.length_drop]
    omega
  · intro d hd lid xs
    rw [pushSeq_entry d hd lid xs]
  · intro d hd lid xs hlen
    have h := pushSeq_entry d hd lid xs
    refine ⟨?_, ?_⟩
    · rw [h]
      show xs.drop (xs.length - d) = xs.drop 5
      congr 1
      omega
    · rw [h]
      show (xs.drop (xs.length - d)).length = d
      simp only [List.length_drop]
      omega

/-- Witness for C2: pushing 25 states into a fresh depth-20 manager
leaves exactly the last 20, in order. -/
theorem undo_depth_bound_witness :
    (1 : ℕ) ≤ 20 ∧ (List.range 25).length = 20 + 5 ∧
    (entry (pushSeq (HistoryManager.init ℕ 20) 1 (List.range 25)) 1).undo =
      (List.range 25).drop 5 ∧
    (entry (pushSeq (HistoryManager.init ℕ 20) 1 (List.range 25)) 1).undo.length = 20 :=
  ⟨by decide, by decide,
   (undo_depth_bound.2.2 20 (by decide) 1 (List.range 25) (by decide)).1,
   (undo_depth_bound.2.2 20 (by decide) 1 (List.range 25) (by decide)).2⟩

/-- C3: a push with `is_initial_state=False` empties the redo stack;
a push with `is_initial_state=True` leaves it unchanged; and after an
`undo` followed by a fresh (non-initial) push, `can_redo` is false. -/
theorem push_clears_redo {α : Type} :
    (∀ (m : HistoryManager α) (lid : ℕ) (img : α),
      (entry (addState m (some lid) img false) lid).redo = []) ∧
    (∀ (m : HistoryManager α) (lid : ℕ) (img : α),
      (entry (addState m (some lid) img true) lid).redo = (entry m lid).redo) ∧
    (∀ (m : HistoryManager α) (lid : ℕ) (img : α),
      (canRedo (addState (hmUndo m (some lid)).2 (some lid) img false) (some lid)).1
        = false) := by
  refine ⟨?_, ?_, ?_⟩
  · intro m lid img
    rw [entry_addState]
    simp
  · intro m lid img
    rw [entry_addState]
    simp
  · intro m lid img
    rw [canRedo_fst, entry_addState]
    simp

/-- C10: `can_undo`/`can_redo` are pure queries: they never modify the
history store, and on a layer id not present in the store they return
`false` without creating an entry for it. -/
theorem can_queries_pure {α : Type} :
    (∀ (m : HistoryManager α) (lids : Option ℕ),
      (canUndo m lids).2 = m ∧ (canRedo m lids).2 = m) ∧
    (∀ (m : HistoryManager α) (lid : ℕ), hmLookup lid m.historyStacks = none →
      canUndo m (some lid) = (false, m) ∧ canRedo m (some lid) = (false, m)) := by
  refine ⟨fun m lids => ⟨canUndo_snd m lids, canRedo_snd m lids⟩, ?_⟩
  intro m lid h
  constructor
  · unfold canUndo
    simp [h]
  · unfold canRedo
    simp [h]

/-- Witness for C10: querying an unknown layer id on a fresh manager
returns `false` and the store is untouched. -/
theorem can_queries_pure_witness :
    hmLookup 5 (HistoryManager.init ℕ 20).historyStacks = none ∧
    canUndo (HistoryManager.init ℕ 20) (some 5) = (false, HistoryManager.init ℕ 20) ∧
    (canRedo (HistoryManager.init ℕ 20) (some 7)).2 = HistoryManager.init ℕ 20 :=
  ⟨by decide,
   (can_queries_pure.2 (HistoryManager.init ℕ 20) 5 (by decide)).1,
   (can_queries_pure.1 (HistoryManager.init ℕ 20) (some 7)).2⟩

/-! ## Support lemmas: the compositor -/

section CompositeLemmas

theorem compositeStep_invisible (bw bh : ℕ) (comp : Image) (l : Layer)
    (hv : l.visible = false) : compositeStep bw bh comp l = comp := by
  unfold compositeStep
  cases h : l.image <;> simp [hv]

theorem compositeStep_imageless (bw bh : ℕ) (comp : Image) (l : Layer)
    (hi : l.image = none) : compositeStep bw bh comp l = comp := by
  unfold compositeStep
  rw [hi]

theorem compositeStep_width (bw bh : ℕ) (comp : Image) (l : Layer) :
    (compositeStep bw bh comp l).width = comp.width ∧
    (compositeStep bw bh comp l).height = comp.height := by
  unfold compositeStep
  cases h : l.image with
  | none => exact ⟨rfl, rfl⟩
  | some img =>
    by_cases hv : l.visible = true <;>
      simp [hv, Image.alphaComposite]

theorem compositeFold_size (bw bh : ℕ) (layers : List Layer) :
    ∀ comp : Image,
      (compositeFold bw bh comp layers).width = comp.width ∧
      (compositeFold bw bh comp layers).height = comp.height := by
  induction layers with
  | nil => intro comp; exact ⟨rfl, rfl⟩
  | cons l rest ih =>
    intro comp
    show (compositeFold bw bh (compositeStep bw bh comp l) rest).width = comp.width ∧
      (compositeFold bw bh (compositeStep bw bh comp l) rest).height = comp.height
    rw [(ih _).1, (ih _).2, (compositeStep_width bw bh comp l).1,
      (compositeStep_width bw bh comp l).2]
    exact ⟨rfl, rfl⟩

theorem compositeFold_middle_invisible (bw bh : ℕ) (comp : Image)
    (pre post : List Layer) (l : Layer) (hv : l.visible = false) :
    compositeFold bw bh comp (pre ++ l :: post) =
      compositeFold bw bh comp (pre ++ post) := by
  unfold compositeFold
  rw [List.foldl_append, List.foldl_append, List.foldl_cons,
    compositeStep_invisible bw bh _ l hv]

theorem firstVisibleSize_cons (l : Layer) (rest : List Layer) :
    firstVisibleSize (l :: rest) =
      (match l.image with
       | some img =>
         if l.visible = true then some (img.width, img.height) else firstVisibleSize rest
       | none => firstVisibleSize rest) := rfl

theorem firstVisibleSize_middle_invisible (pre post : List Layer) (l : Layer)
    (hv : l.visible = false) :
    firstVisibleSize (pre ++ l :: post) = firstVisibleSize (pre ++ post) := by
  induction pre with
  | nil =>
    show firstVisibleSize (l :: post) = firstVisibleSize post
    rw [firstVisibleSize_cons]
    cases h : l.image with
    | none => rfl
    | some img => rw [hv]; simp
  | cons p rest ih =>
    show firstVisibleSize (p :: (rest ++ l :: post)) =
      firstVisibleSize (p :: (rest ++ post))
    rw [firstVisibleSize_cons, firstVisibleSize_cons]
    cases h : p.image with
    | none => exact ih
    | some img => rw [ih]

theorem firstVisibleSize_none (layers : List Layer)
    (h : ∀ l ∈ layers, ¬(l.visible = true ∧ l.image.isSome = true)) :
    firstVisibleSize layers = none := by
  induction layers with
  | nil => rfl
  | cons l rest ih =>
    have hl := h l (by simp)
    unfold firstVisibleSize
    cases hi : l.image with
    | none => exact ih fun l2 h2 => h l2 (by simp [h2])
    | some img =>
      have hlv : l.visible = false := by
        cases hv : l.visible
        · rfl
        · exact absurd ⟨hv, by rw [hi]; rfl⟩ hl
      rw [hlv]
      exact ih fun l2 h2 => h l2 (by simp [h2])

theorem firstVisibleSize_none_iff (layers : List Layer) :
    firstVisibleSize layers = none ↔
      ∀ l ∈ layers, ¬(l.visible = true ∧ l.image.isSome = true) := by
  constructor
  · induction layers with
    | nil => intro h l hl; simp at hl
    | cons l0 rest ih =>
      intro h l hl
      rw [firstVisibleSize_cons] at h
      cases hi : l0.image with
      | none =>
        rw [hi] at h
        rcases List.mem_cons.mp hl with he | hm
        · subst he
          rw [hi]
          simp
        · exact ih h l hm
      | some img =>
        rw [hi] at h
        cases hv : l0.visible
        · rw [hv] at h
          simp only [Bool.false_eq_true, if_false] at h
          rcases List.mem_cons.mp hl with he | hm
          · subst he
            exact fun hc => absurd hc.1 (by rw [hv]; simp)
          · exact ih h l hm
        · rw [hv] at h
          simp at h
  · exact firstVisibleSize_none layers

theorem getCompositeImage_base_none (m : LayerManager) (l0 : Layer)
    (rest : List Layer) (hm : m.layers = l0 :: rest)
    (hvis : ∀ l ∈ m.layers, ¬(l.visible = true ∧ l.image.isSome = true))
    (h0 : l0.image = none) :
    getCompositeImage m = some (Image.new 1 1 Pixel.transparent) := by
  have hf : firstVisibleSize m.layers = none := firstVisibleSize_none m.layers hvis
  have hbase : compositeBaseSize m.layers = none := by
    unfold compositeBaseSize
    rw [hf, hm]
    show (match l0.image with
          | some img => some (img.width, img.height)
          | none => none) = none
    rw [h0]
  unfold getCompositeImage
  rw [if_neg (by simp [hm]), hbase]

theorem firstVisibleSize_found (pre post : List Layer) (l : Layer) (img : Image)
    (hpre : ∀ l2 ∈ pre, ¬(l2.visible = true ∧ l2.image.isSome = true))
    (hv : l.visible = true) (hi : l.image = some img) :
    firstVisibleSize (pre ++ l :: post) = some (img.width, img.height) := by
  induction pre with
  | nil =>
    show firstVisibleSize (l :: post) = some (img.width, img.height)
    unfold firstVisibleSize
    rw [hi, hv]
    simp
  | cons p rest ih =>
    have hp := hpre p (by simp)
    show firstVisibleSize (p :: (rest ++ l :: post)) = some (img.width, img.height)
    unfold firstVisibleSize
    cases hpi : p.image with
    | none => exact ih fun l2 h2 => hpre l2 (by simp [h2])
    | some pimg =>
      have hpv : p.visible = false := by
        cases hv2 : p.visible
        · rfl
        · exact absurd ⟨hv2, by rw [hpi]; rfl⟩ hp
      rw [hpv]
      simp only [Bool.false_eq_true, if_false]
      exact ih fun l2 h2 => hpre l2 (by simp [h2])

theorem firstVisibleSize_isSome (layers : List Layer)
    (h : ∃ l ∈ layers, l.visible = true ∧ l.image.isSome = true) :
    ∃ wh, firstVisibleSize layers = some wh := by
  induction layers with
  | nil => simp at h
  | cons l rest ih =>
    unfold firstVisibleSize
    cases hi : l.image with
    | none =>
      refine ih ?_
      obtain ⟨l2, hmem, hl2⟩ := h
      rcases List.mem_cons.mp hmem with heq | hm
      · rw [heq, hi] at hl2
        simp at hl2
      · exact ⟨l2, hm, hl2⟩
    | some img =>
      cases hv : l.visible
      · simp only [Bool.false_eq_true, if_false]
        refine ih ?_
        obtain ⟨l2, hmem, hl2⟩ := h
        rcases List.mem_cons.mp hmem with heq | hm
        · rw [heq] at hl2
          rw [hl2.1] at hv
          simp at hv
        · exact ⟨l2, hm, hl2⟩
      · simp

/-- Shared consequence: when no layer has an image, the composite is
the minimal 1×1 transparent image. -/
theorem getCompositeImage_all_imageless (m : LayerManager) (hne : m.layers ≠ [])
    (h : ∀ l ∈ m.layers, l.image = none) :
    getCompositeImage m = some (Image.new 1 1 Pixel.transparent) := by
  have hf : firstVisibleSize m.layers = none := by
    apply firstVisibleSize_none
    intro l hl
    rw [h l hl]
    simp
  have hbase : compositeBaseSize m.layers = none := by
    unfold compositeBaseSize
    rw [hf]
    cases hl : m.layers with
    | nil => rfl
    | cons l0 rest =>
      have h0 : l0.image = none := h l0 (by rw [hl]; simp)
      show (match l0.image with
            | some img => some (img.width, img.height)
            | none => none) = none
      rw [h0]
  unfold getCompositeImage
  rw [if_neg (by simp [hne]), hbase]

end CompositeLemmas

/-! ## Claim theorems: compositor -/

/-- C4 counterexample: with no layers at all, `get_composite_image`
returns `None` (line 81–82), not the minimal 1×1 transparent image the
claim promises. -/
theorem empty_composite_counterexample :
    getCompositeImage ⟨[], none, 1⟩ ≠ some (Image.new 1 1 Pixel.transparent) := by
  intro h
  simp [getCompositeImage] at h

/-- C4 (amended): with no layers the composite is `None`; the minimal
1×1 fully transparent image is returned when layers exist, no layer is
both visible and has an image, and the first (bottom-most) layer has
no image — the fallback consults only the first layer, so a later
invisible layer carrying an image does not prevent the 1×1 result.
The third conjunct characterises the fallback branch exactly: the
base-size search fails (triggering the 1×1 image) iff that condition
holds. -/
theorem empty_composite_behaviour :
    (∀ (aid : Option ℕ) (cnt : ℕ), getCompositeImage ⟨[], aid, cnt⟩ = none) ∧
    (∀ (m : LayerManager) (l0 : Layer) (rest : List Layer), m.layers = l0 :: rest →
      (∀ l ∈ m.layers, ¬(l.visible = true ∧ l.image.isSome = true)) →
      l0.image = none →
      getCompositeImage m = some (Image.new 1 1 Pixel.transparent)) ∧
    (∀ (l0 : Layer) (rest : List Layer),
      compositeBaseSize (l0 :: rest) = none ↔
        ((∀ l ∈ l0 :: rest, ¬(l.visible = true ∧ l.image.isSome = true)) ∧
          l0.image = none)) := by
  refine ⟨fun _ _ => rfl,
    fun m l0 rest hm hvis h0 => getCompositeImage_base_none m l0 rest hm hvis h0, ?_⟩
  intro l0 rest
  unfold compositeBaseSize
  cases hf : firstVisibleSize (l0 :: rest) with
  | some wh =>
    constructor
    · intro h
      exact absurd h (by simp)
    · intro h
      have hn := firstVisibleSize_none (l0 :: rest) h.1
      rw [hn] at hf
      simp at hf
  | none =>
    show (match l0.image with
          | some img => some (img.width, img.height)
          | none => none) = none ↔ _
    constructor
    · intro h
      refine ⟨(firstVisibleSize_none_iff (l0 :: rest)).mp hf, ?_⟩
      cases hi : l0.image with
      | none => rfl
      | some img =>
        rw [hi] at h
        simp at h
    · intro h
      rw [h.2]

/-- Witness for C4 (amended): a stack whose first layer has no image
while a later invisible layer does carry one still composites to the
1×1 transparent image. -/
theorem empty_composite_behaviour_witness :
    ((⟨0, "e", none, none, true, 1⟩ : Layer).image = none) ∧
    getCompositeImage
        ⟨[⟨0, "e", none, none, true, 1⟩,
          ⟨1, "h", some (Image.new 2 2 ⟨1, 1, 1, 1⟩), none, false, 1⟩], none, 1⟩ =
      some (Image.new 1 1 Pixel.transparent) :=
  ⟨rfl,
   empty_composite_behaviour.2.1
     ⟨[⟨0, "e", none, none, true, 1⟩,
       ⟨1, "h", some (Image.new 2 2 ⟨1, 1, 1, 1⟩), none, false, 1⟩], none, 1⟩
     ⟨0, "e", none, none, true, 1⟩
     [⟨1, "h", some (Image.new 2 2 ⟨1, 1, 1, 1⟩), none, false, 1⟩]
     rfl
     (by
       intro l hl
       rcases List.mem_cons.mp hl with he | hm
       · subst he; simp
       · rw [List.mem_singleton] at hm; subst hm; simp)
     rfl⟩

/-- C5: the composite canvas size is the size of the first (bottom-most)
layer that is visible and has an image; when no such layer exists it
falls back to the first layer's image size regardless of visibility;
and when no layer has pixels the composite is the 1×1 transparent
image. -/
theorem composite_canvas_size :
    (∀ (m : LayerManager) (pre post : List Layer) (l : Layer) (img : Image),
      m.layers = pre ++ l :: post → l.visible = true → l.image = some img →
      (∀ l2 ∈ pre, ¬(l2.visible = true ∧ l2.image.isSome = true)) →
      ∃ c, getCompositeImage m = some c ∧
        c.width = img.width ∧ c.height = img.height) ∧
    (∀ (m : LayerManager) (l0 : Layer) (rest : List Layer) (img : Image),
      m.layers = l0 :: rest →
      (∀ l2 ∈ m.layers, ¬(l2.visible = true ∧ l2.image.isSome = true)) →
      l0.image = some img →
      ∃ c, getCompositeImage m = some c ∧
        c.width = img.width ∧ c.height = img.height) ∧
    (∀ m : LayerManager, m.layers ≠ [] → (∀ l ∈ m.layers, l.image = none) →
      getCompositeImage m = some (Image.new 1 1 Pixel.transparent)) := by
  refine ⟨?_, ?_, fun m hne h => getCompositeImage_all_imageless m hne h⟩
  · intro m pre post l img hm hv hi hpre
    have hne : m.layers.isEmpty = false := by rw [hm]; simp
    have hbase : compositeBaseSize m.layers = some (img.width, img.height) := by
      unfold compositeBaseSize
      rw [hm, firstVisibleSize_found pre post l img hpre hv hi]
    refine ⟨compositeFold img.width img.height
      (Image.new img.width img.height Pixel.transparent) m.layers, ?_, ?_, ?_⟩
    · unfold getCompositeImage
      rw [hne, hbase]
      simp
    · exact (compositeFold_size img.width img.height m.layers
        (Image.new img.width img.height Pixel.transparent)).1
    · exact (compositeFold_size img.width img.height m.layers
        (Image.new img.width img.height Pixel.transparent)).2
  · intro m l0 rest img hm hall hi
    have hne : m.layers.isEmpty = false := by rw [hm]; simp
    have hf : firstVisibleSize m.layers = none := firstVisibleSize_none m.layers hall
    have hbase : compositeBaseSize m.layers = some (img.width, img.height) := by
      unfold compositeBaseSize
      rw [hf, hm]
      show (match l0.image with
            | some i => some (i.width, i.height)
            | none => none) = some (img.width, img.height)
      rw [hi]
    refine ⟨compositeFold img.width img.height
      (Image.new img.width img.height Pixel.transparent) m.layers, ?_, ?_, ?_⟩
    · unfold getCompositeImage
      rw [hne, hbase]
      simp
    · exact (compositeFold_size img.width img.height m.layers
        (Image.new img.width img.height Pixel.transparent)).1
    · exact (compositeFold_size img.width img.height m.layers
        (Image.new img.width img.height Pixel.transparent)).2

/-- Witness for C5: a stack with an invisible 4×3 bottom layer and a
visible 3×2 top layer composites at 3×2. -/
theorem composite_canvas_size_witness :
    ((⟨1, "fg", some (Image.new 3 2 ⟨1, 0, 0, 1⟩), none, true, 1⟩ : Layer).visible = true) ∧
    (∃ c, getCompositeImage
        ⟨[⟨0, "bg", some (Image.new 4 3 ⟨0, 0, 0, 1⟩), none, false, 1⟩,
          ⟨1, "fg", some (Image.new 3 2 ⟨1, 0, 0, 1⟩), none, true, 1⟩], none, 1⟩ = some c ∧
      c.width = (Image.new 3 2 (⟨1, 0, 0, 1⟩ : Pixel)).width ∧
      c.height = (Image.new 3 2 (⟨1, 0, 0, 1⟩ : Pixel)).height) :=
  ⟨rfl,
   composite_canvas_size.1
     ⟨[⟨0, "bg", some (Image.new 4 3 ⟨0, 0, 0, 1⟩), none, false, 1⟩,
       ⟨1, "fg", some (Image.new 3 2 ⟨1, 0, 0, 1⟩), none, true, 1⟩], none, 1⟩
     [⟨0, "bg", some (Image.new 4 3 ⟨0, 0, 0, 1⟩), none, false, 1⟩] []
     ⟨1, "fg", some (Image.new 3 2 ⟨1, 0, 0, 1⟩), none, true, 1⟩
     (Image.new 3 2 ⟨1, 0, 0, 1⟩)
     rfl rfl rfl
     (fun l2 h2 => by rw [List.mem_singleton] at h2; rw [h2]; simp)⟩

theorem compositeFold_filter (bw bh : ℕ) (layers : List Layer) :
    ∀ comp : Image,
      compositeFold bw bh comp layers =
        compositeFold bw bh comp
          (layers.filter fun l => l.visible && l.image.isSome) := by
  induction layers with
  | nil => intro comp; rfl
  | cons l rest ih =>
    intro comp
    rw [List.filter_cons]
    by_cases hv : l.visible = true
    · by_cases hi : l.image.isSome = true
      · rw [if_pos (by rw [hv, hi]; rfl)]
        calc compositeFold bw bh comp (l :: rest)
            = compositeFold bw bh (compositeStep bw bh comp l) rest := rfl
          _ = compositeFold bw bh (compositeStep bw bh comp l)
                (rest.filter fun l2 => l2.visible && l2.image.isSome) := ih _
          _ = compositeFold bw bh comp
                (l :: rest.filter fun l2 => l2.visible && l2.image.isSome) := rfl
      · have hin : l.image = none := by
          cases h : l.image
          · rfl
          · rw [h] at hi; simp at hi
        rw [if_neg (by rw [hin]; simp)]
        calc compositeFold bw bh comp (l :: rest)
            = compositeFold bw bh (compositeStep bw bh comp l) rest := rfl
          _ = compositeFold bw bh comp rest := by
              rw [compositeStep_imageless bw bh comp l hin]
          _ = compositeFold bw bh comp
                (rest.filter fun l2 => l2.visible && l2.image.isSome) := ih comp
    · have hv' : l.visible = false := by
        cases h : l.visible
        · rfl
        · exact absurd h hv
      rw [if_neg (by rw [hv']; simp)]
      calc compositeFold bw bh comp (l :: rest)
          = compositeFold bw bh (compositeStep bw bh comp l) rest := rfl
        _ = compositeFold bw bh comp rest := by
            rw [compositeStep_invisible bw bh comp l hv']
        _ = compositeFold bw bh comp
              (rest.filter fun l2 => l2.visible && l2.image.isSome) := ih comp

/-- C6 counterexample: the canvas-sized buffer the code builds for a
size-mismatched layer (`temp_layer_canvas.paste(layer.image, (0, 0),
layer.image)`) is NOT the layer placed verbatim at the top-left corner:
a half-transparent pure-red 1×1 layer on a 2×2 canvas gets alpha 1/4
(its alpha squared), not 1/2. -/
theorem mismatch_buffer_counterexample :
    Image.pasteSelfMask (Image.new 2 2 Pixel.transparent)
        ⟨1, 1, fun _ _ => ⟨1, 0, 0, 1/2⟩⟩ ≠
      Image.placeTopLeftSpec 2 2 ⟨1, 1, fun _ _ => ⟨1, 0, 0, 1/2⟩⟩ := by
  intro h
  have ha := congrArg (fun i => (i.pix 0 0).a) h
  simp [Image.pasteSelfMask, Image.placeTopLeftSpec, Image.new,
    Pixel.pasteBlend, Pixel.transparent] at ha

/-- C6 (amended): the compositing loop skips exactly the invisible or
image-less layers; a size-mismatched layer is blended onto a
transparent canvas-sized buffer at the top-left corner using its own
alpha as the paste mask — in-bounds pixels come out with every band
scaled by the pixel's alpha (so fully opaque or fully clear pixels are
placed verbatim, semi-transparent ones are attenuated), out-of-bounds
pixels are transparent, no scaling, no cropping; and `alpha_composite`
is standard "over": on the premultiplied representation it is exactly
`out = src + dst*(1-src.a)` (for alpha values in `[0,1]`). -/
theorem composite_blending :
    (∀ (bw bh : ℕ) (comp : Image) (layers : List Layer),
      compositeFold bw bh comp layers =
        compositeFold bw bh comp
          (layers.filter fun l => l.visible && l.image.isSome)) ∧
    (∀ (bw bh : ℕ) (img : Image),
      (Image.pasteSelfMask (Image.new bw bh Pixel.transparent) img).width = bw ∧
      (Image.pasteSelfMask (Image.new bw bh Pixel.transparent) img).height = bh ∧
      ∀ x y : ℕ,
        (Image.pasteSelfMask (Image.new bw bh Pixel.transparent) img).pix x y =
          if x < img.width ∧ y < img.height then
            ⟨(img.pix x y).r * (img.pix x y).a, (img.pix x y).g * (img.pix x y).a,
             (img.pix x y).b * (img.pix x y).a, (img.pix x y).a * (img.pix x y).a⟩
          else Pixel.transparent) ∧
    (∀ src dst : Pixel, 0 ≤ src.a → src.a ≤ 1 → 0 ≤ dst.a → dst.a ≤ 1 →
      Pixel.premul (Pixel.overStraight src dst) =
        Pixel.overPremulSpec (Pixel.premul src) (Pixel.premul dst)) := by
  refine ⟨fun bw bh comp layers => compositeFold_filter bw bh layers comp, ?_, ?_⟩
  · intro bw bh img
    refine ⟨rfl, rfl, ?_⟩
    intro x y
    by_cases h : x < img.width ∧ y < img.height <;>
      simp [Image.pasteSelfMask, Image.new, Pixel.pasteBlend, Pixel.transparent, h]
  · intro src dst hs0 hs1 hd0 hd1
    unfold Pixel.premul Pixel.overStraight Pixel.overPremulSpec
    by_cases h : src.a + dst.a * (1 - src.a) = 0
    · have hnn : 0 ≤ dst.a * (1 - src.a) := mul_nonneg hd0 (by linarith)
      have h1 : src.a = 0 := by nlinarith
      have h2 : dst.a = 0 := by rw [h1] at h; simpa using h
      rw [h1, h2]
      norm_num
    · simp only [Pixel.mk.injEq]
      and_intros <;> first | exact div_mul_cancel₀ _ h | rfl | trivial

/-- Witness for C6 (amended), part three, at concrete half-transparent
red over opaque white. -/
theorem composite_blending_witness :
    ((0 : ℚ) ≤ 1/2 ∧ (1/2 : ℚ) ≤ 1) ∧
    Pixel.premul (Pixel.overStraight ⟨1, 0, 0, 1/2⟩ ⟨1, 1, 1, 1⟩) =
      Pixel.overPremulSpec (Pixel.premul ⟨1, 0, 0, 1/2⟩) (Pixel.premul ⟨1, 1, 1, 1⟩) :=
  ⟨⟨by norm_num, by norm_num⟩,
   composite_blending.2.2 ⟨1, 0, 0, 1/2⟩ ⟨1, 1, 1, 1⟩
     (by norm_num) (by norm_num) (by norm_num) (by norm_num)⟩

/-- C7 counterexample: a stack holding a single invisible layer with a
2×2 image composites to a 2×2 transparent image (the base-size fallback
uses the invisible first layer), while removing that layer entirely
yields `None` — so toggling visibility off is NOT the same as removal. -/
theorem invisible_layer_counterexample :
    getCompositeImage
        ⟨[⟨0, "L", some (Image.new 2 2 ⟨1, 1, 1, 1⟩), none, false, 1⟩], none, 1⟩ ≠
      getCompositeImage ⟨[], none, 1⟩ := by
  intro h
  simp [getCompositeImage, compositeBaseSize, firstVisibleSize] at h

/-- C7 (amended): making a layer invisible gives the same composite as
removing it, provided some other layer of the stack is visible and has
an image (without that proviso the canvas-size fallback and the
no-layers check can observe the invisible layer). -/
theorem invisible_layer_no_effect (pre post : List Layer) (l : Layer)
    (aid : Option ℕ) (cnt : ℕ) (hv : l.visible = false)
    (hM : ∃ l2 ∈ pre ++ post, l2.visible = true ∧ l2.image.isSome = true) :
    getCompositeImage ⟨pre ++ l :: post, aid, cnt⟩ =
      getCompositeImage ⟨pre ++ post, aid, cnt⟩ := by
  obtain ⟨wh, hwh⟩ := firstVisibleSize_isSome (pre ++ post) hM
  obtain ⟨bw, bh⟩ := wh
  have hf1 : firstVisibleSize (pre ++ l :: post) = some (bw, bh) := by
    rw [firstVisibleSize_middle_invisible pre post l hv, hwh]
  have hne1 : (pre ++ l :: post).isEmpty = false := by simp
  have hne2 : (pre ++ post).isEmpty = false := by
    obtain ⟨l2, hmem, _⟩ := hM
    cases hpp : pre ++ post with
    | nil => rw [hpp] at hmem; simp at hmem
    | cons a t => rfl
  have hb1 : compositeBaseSize (pre ++ l :: post) = some (bw, bh) := by
    unfold compositeBaseSize
    rw [hf1]
  have hb2 : compositeBaseSize (pre ++ post) = some (bw, bh) := by
    unfold compositeBaseSize
    rw [hwh]
  show (if (pre ++ l :: post).isEmpty then none
        else match compositeBaseSize (pre ++ l :: post) with
          | none => some (Image.new 1 1 Pixel.transparent)
          | some (bw, bh) =>
            some (compositeFold bw bh (Image.new bw bh Pixel.transparent)
              (pre ++ l :: post))) =
       (if (pre ++ post).isEmpty then none
        else match compositeBaseSize (pre ++ post) with
          | none => some (Image.new 1 1 Pixel.transparent)
          | some (bw, bh) =>
            some (compositeFold bw bh (Image.new bw bh Pixel.transparent)
              (pre ++ post)))
  rw [hne1, hne2, hb1, hb2]
  simp only [Bool.false_eq_true, if_false]
  rw [compositeFold_middle_invisible bw bh _ pre post l hv]

/-- Witness for C7 (amended): hiding a blue layer under a visible red
layer equals deleting it. -/
theorem invisible_layer_no_effect_witness :
    ((⟨0, "hid", some (Image.new 2 2 ⟨0, 0, 1, 1⟩), none, false, 1⟩ : Layer).visible
      = false) ∧
    getCompositeImage
        ⟨[⟨0, "hid", some (Image.new 2 2 ⟨0, 0, 1, 1⟩), none, false, 1⟩,
          ⟨1, "vis", some (Image.new 2 2 ⟨1, 0, 0, 1⟩), none, true, 1⟩], none, 1⟩ =
      getCompositeImage
        ⟨[⟨1, "vis", some (Image.new 2 2 ⟨1, 0, 0, 1⟩), none, true, 1⟩], none, 1⟩ :=
  ⟨rfl,
   invisible_layer_no_effect []
     [⟨1, "vis", some (Image.new 2 2 ⟨1, 0, 0, 1⟩), none, true, 1⟩]
     ⟨0, "hid", some (Image.new 2 2 ⟨0, 0, 1, 1⟩), none, false, 1⟩ none 1 rfl
     ⟨⟨1, "vis", some (Image.new 2 2 ⟨1, 0, 0, 1⟩), none, true, 1⟩, by simp, rfl, rfl⟩⟩

/-! ## Support lemmas: the drawing canvas -/

theorem mousePressEvent_eq {Img : Type} (s : CanvasState Img) (pos : QtPoint) :
    mousePressEvent s pos =
      if s.mode ∈ (["rect", "ellipse", "line"] : List String) ∧ s.image.isSome = true then
        { s with drawing := true, lastPoint := pos, startPoint := pos,
                 tempImage := s.image }
      else { s with drawing := true, lastPoint := pos, startPoint := pos } := by
  by_cases h : s.mode ∈ (["rect", "ellipse", "line"] : List String) ∧ s.image.isSome = true
  · simp [mousePressEvent, h]
  · simp [mousePressEvent, h]

theorem mouseMove_shape_step {Img : Type}
    (dBL : Img → String → ℕ → ℤ → QtPoint → QtPoint → Img)
    (dSO : Img → ℕ → ℤ → String → QtPoint → QtPoint → Img)
    (t : CanvasState Img) (q : QtPoint) (img0 : Img)
    (hd : t.drawing = true)
    (hmode : t.mode = "rect" ∨ t.mode = "ellipse" ∨ t.mode = "line")
    (htemp : t.tempImage = some img0)
    (hsome : t.image.isSome = true) :
    mouseMoveEvent dBL dSO t q =
      { t with currentMousePos := q,
               image := some (dSO img0 t.penColor t.penWidth t.mode t.startPoint q) } := by
  obtain ⟨i, hi⟩ := Option.isSome_iff_exists.mp hsome
  rcases hmode with h | h | h <;>
    simp [mouseMoveEvent, hd, h, htemp, hi]

theorem shape_move_run {Img : Type}
    (dBL : Img → String → ℕ → ℤ → QtPoint → QtPoint → Img)
    (dSO : Img → ℕ → ℤ → String → QtPoint → QtPoint → Img)
    (mode : String) (col : ℕ) (w : ℤ) (p0 : QtPoint) (img0 : Img)
    (hmode : mode = "rect" ∨ mode = "ellipse" ∨ mode = "line") :
    ∀ (ps : List QtPoint) (p : QtPoint) (t : CanvasState Img),
      t.drawing = true → t.mode = mode → t.tempImage = some img0 →
      t.startPoint = p0 → t.penColor = col → t.penWidth = w → t.image.isSome = true →
      ((ps ++ [p]).foldl (mouseMoveEvent dBL dSO) t).image =
          some (dSO img0 col w mode p0 p) ∧
      ((ps ++ [p]).foldl (mouseMoveEvent dBL dSO) t).tempImage = some img0 := by
  intro ps
  induction ps with
  | nil =>
    intro p t hd hm ht hs hc hw hi
    have hstep := mouseMove_shape_step dBL dSO t p img0 hd (by rw [hm]; exact hmode) ht hi
    show (mouseMoveEvent dBL dSO t p).image = some (dSO img0 col w mode p0 p) ∧
      (mouseMoveEvent dBL dSO t p).tempImage = some img0
    rw [hstep]
    constructor
    · show some (dSO img0 t.penColor t.penWidth t.mode t.startPoint p) =
        some (dSO img0 col w mode p0 p)
      rw [hm, hs, hc, hw]
    · show t.tempImage = some img0
      exact ht
  | cons q ps ih =>
    intro p t hd hm ht hs hc hw hi
    have hstep := mouseMove_shape_step dBL dSO t q img0 hd (by rw [hm]; exact hmode) ht hi
    show ((ps ++ [p]).foldl (mouseMoveEvent dBL dSO) (mouseMoveEvent dBL dSO t q)).image =
        some (dSO img0 col w mode p0 p) ∧
      ((ps ++ [p]).foldl (mouseMoveEvent dBL dSO)
        (mouseMoveEvent dBL dSO t q)).tempImage = some img0
    rw [hstep]
    exact ih p _ hd hm ht hs hc hw rfl

/-! ## Claim theorems: drawing canvas -/

/-- C8: in a shape mode with the drawing session active (started by a
left press at `p0` on an image `img0`), after every sequence of move
events the working image equals the snapshot `img0` with exactly one
shape drawn (by `_draw_shape_on_painter`) from the anchor `p0` to the
current point — earlier drag positions leave no trace — and the
`temp_image` snapshot still holds `img0`. -/
theorem shape_preview_non_destructive {Img : Type}
    (dBL : Img → String → ℕ → ℤ → QtPoint → QtPoint → Img)
    (dSO : Img → ℕ → ℤ → String → QtPoint → QtPoint → Img)
    (s : CanvasState Img) (img0 : Img) (p0 : QtPoint) (ps : List QtPoint) (p : QtPoint)
    (hmode : s.mode ∈ (["rect", "ellipse", "line"] : List String))
    (himg : s.image = some img0) :
    (((ps ++ [p]).foldl (mouseMoveEvent dBL dSO) (mousePressEvent s p0)).image =
        some (dSO img0 s.penColor s.penWidth s.mode p0 p)) ∧
    (((ps ++ [p]).foldl (mouseMoveEvent dBL dSO) (mousePressEvent s p0)).tempImage =
        some img0) := by
  have hm3 : s.mode = "rect" ∨ s.mode = "ellipse" ∨ s.mode = "line" := by
    simpa using hmode
  have hcond : s.mode ∈ (["rect", "ellipse", "line"] : List String) ∧
      s.image.isSome = true := ⟨hmode, by rw [himg]; rfl⟩
  have hpress : mousePressEvent s p0 =
      { s with drawing := true, lastPoint := p0, startPoint := p0,
               tempImage := s.image } := by
    rw [mousePressEvent_eq, if_pos hcond]
  refine shape_move_run dBL dSO s.mode s.penColor s.penWidth p0 img0 hm3 ps p
    (mousePressEvent s p0) ?_ ?_ ?_ ?_ ?_ ?_ ?_ <;>
    first
      | (rw [hpress]; done)
      | (rw [hpress]; exact himg)
      | (rw [hpress]; simp [himg])

/-- Witness for C8 at a concrete two-move rectangle drag over the
abstract image type `ℕ`. -/
theorem shape_preview_non_destructive_witness :
    ("rect" ∈ (["rect", "ellipse", "line"] : List String)) ∧
    ((([((1 : ℤ), (1 : ℤ))] ++ [((2 : ℤ), (3 : ℤ))]).foldl
        (mouseMoveEvent (fun i _ _ _ _ _ => i + 100) (fun i _ _ _ _ _ => i + 1))
        (mousePressEvent ({ CanvasState.init 7 with mode := "rect" } : CanvasState ℕ)
          (0, 0))).image = some 8) :=
  ⟨by decide,
   (shape_preview_non_destructive (fun i _ _ _ _ _ => i + 100) (fun i _ _ _ _ _ => i + 1)
      { CanvasState.init 7 with mode := "rect" } 7 (0, 0) [(1, 1)] (2, 3)
      (by decide) rfl).1⟩

/-- C9: `set_pen_width` with a non-positive integer, or with a
non-integer value, leaves the whole canvas state unchanged (and in
particular `pen_width`), and `set_mode` with a string outside the five
valid modes leaves the state (including the mode and the brush-cursor
flag) unchanged; none of them raises. -/
theorem invalid_input_rejected {Img : Type} :
    (∀ (s : CanvasState Img) (n : ℤ), n ≤ 0 → setPenWidth s (PyIntArg.int n) = s) ∧
    (∀ s : CanvasState Img, setPenWidth s PyIntArg.nonint = s) ∧
    (∀ (s : CanvasState Img) (mode : String), mode ∉ validModes → setMode s mode = s) := by
  refine ⟨?_, fun s => rfl, ?_⟩
  · intro s n hn
    show (if n > 0 then { s with penWidth := n } else s) = s
    rw [if_neg (by omega)]
  · intro s mode hm
    unfold setMode
    rw [if_neg hm]

/-- Witness for C9: width −3, a non-integer width, and mode `"spray"`
are all rejected without touching the state. -/
theorem invalid_input_rejected_witness :
    ((-3 : ℤ) ≤ 0) ∧ ("spray" ∉ validModes) ∧
    setPenWidth (CanvasState.init (0 : ℕ)) (PyIntArg.int (-3)) = CanvasState.init 0 ∧
    setPenWidth (CanvasState.init (0 : ℕ)) PyIntArg.nonint = CanvasState.init 0 ∧
    setMode (CanvasState.init (0 : ℕ)) "spray" = CanvasState.init 0 :=
  ⟨by decide, by decide,
   (@invalid_input_rejected ℕ).1 (CanvasState.init 0) (-3) (by decide),
   (@invalid_input_rejected ℕ).2.1 (CanvasState.init 0),
   (@invalid_input_rejected ℕ).2.2 (CanvasState.init 0) "spray" (by decide)⟩

end Oisoik
